import Mathlib

/-!
# Verification of the WZF indexing-and-search engine

This file is a shallow embedding, in Lean 4, of the core of `wzf.py`
(the WZF fuzzy file finder): the recursive directory walk
(`WZF.scan_directory`), the on-disk index cache (`WZF.get_cache_path`,
`WZF.load_cache`, `WZF.save_cache`), the tiered query matcher executed by
the background search thread (`WZF.async_search`), and the
drain-then-deposit query coordination (`WZF.filter_files`).

Conventions used throughout:
* Python machine-level details are modelled with `Nat`/`Int`/`String`.
* Filesystem paths handled by the walk are modelled as `List String`
  (the list of path components below a root); paths handled by the
  search/cache layers are plain strings, as in the source.
* Fallible operations return `Option`.
* `str.lower()` is modelled as ASCII lowercasing (`charLower`), which is
  what it computes on the ASCII file names all claims are about.
* External collaborators (the `rapidfuzz` scorer, `hashlib.md5`) are not
  part of the repository; they are either taken as parameters or modelled
  from the spec, as marked in their doc comments.
-/

namespace WZF

/-! ## Strings: lowercasing, basenames, substring tests -/

/-- `str.lower()` restricted to ASCII, applied character-wise. -/
def charLower (c : Char) : Char :=
  if 'A' ≤ c ∧ c ≤ 'Z' then Char.ofNat (c.toNat + 32) else c

/-- `s.lower()` on a whole string. -/
def strLower (s : String) : String :=
  ⟨s.data.map charLower⟩

/-- `os.path.basename`: the text after the last path separator
(`\` or `/`).  All paths produced by the program are
`directory + separator + name` concatenations, for which this is exactly
the Python behaviour. -/
def basename (s : String) : String :=
  ⟨s.data.foldl (fun acc c => if c = '\\' ∨ c = '/' then [] else acc ++ [c]) []⟩

/-- Python's `needle in hay` substring test on character lists:
true iff `needle` occurs contiguously in `hay`. -/
def containsSub (needle : List Char) : List Char → Bool
  | [] => needle.isEmpty
  | c :: t => needle.isPrefixOf (c :: t) || containsSub needle t

/-! ## The in-memory index consumed by the matcher

`WZF.files` is the list of indexed paths and `WZF.filename_index` the
dict mapping a path to its precomputed lowercase basename
(`self.filename_index[file_path] = os.path.basename(file_path).lower()`).
The dict is modelled as an association list. -/

structure SearchState where
  files : List String
  filename_index : List (String × String)
deriving DecidableEq, Repr

/-- `self.filename_index.get(f, os.path.basename(f).lower())`. -/
def lookupName (st : SearchState) (f : String) : String :=
  (st.filename_index.lookup f).getD (strLower (basename f))

/-! ## `rapidfuzz.process.extract`, modelled

Insertion into a list sorted by descending score, placing an element
before the first entry whose score is `≤` its own; this keeps elements
of equal score in the order they were inserted... see `sortDesc`. -/

def insertDesc (a : String × Nat) : List (String × Nat) → List (String × Nat)
  | [] => [a]
  | b :: t => if b.2 ≤ a.2 then a :: b :: t else b :: insertDesc a t

/-- Stable sort by descending score (insertion sort from the right, so
earlier list elements are inserted last and land before equal scores). -/
def sortDesc : List (String × Nat) → List (String × Nat)
  | [] => []
  | a :: t => insertDesc a (sortDesc t)

/-- Modelled from the spec: `rapidfuzz.process.extract(query, choices,
limit, scorer, score_cutoff)` is not repository code (it is an external
library); following the spec's description it scores every choice
against the query, keeps those at or above the cutoff, sorts descending
by score with stable ties (original presentation order preserved), and
returns at most `limit` `(choice, score)` pairs. -/
def process_extract (query : String) (choices : List String) (limit : Nat)
    (scorer : String → String → Nat) (cutoff : Nat) : List (String × Nat) :=
  let scored := choices.map fun c => (c, scorer query c)
  let kept := scored.filter fun p => decide (cutoff ≤ p.2)
  (sortDesc kept).take limit

/-! ## One iteration of the background search loop

`search_step st scorer q` is the body of `WZF.async_search` for one
dequeued query `q` (everything between `query = self.search_queue.get()`
and the matching `self.result_queue.put(...)`), with the fuzzy scorer
(`fuzz.partial_ratio`, external) as a parameter. -/

def search_step (st : SearchState) (scorer : String → String → Nat)
    (query : String) : List String :=
  if query = "" then
    st.files.take 1000
  else if query.length ≤ 2 then
    let query_lower := strLower query
    (st.files.filter fun f =>
      containsSub query_lower.data (lookupName st f).data).take 1000
  else if query.length ≤ 4 then
    let query_lower := strLower query
    let candidates := st.files.filter fun f =>
      query_lower.data.all fun c => (lookupName st f).data.contains c
    (candidates.filter fun f =>
      containsSub query_lower.data (lookupName st f).data).take 1000
  else
    let query_lower := strLower query
    let candidates0 := st.files.filter fun f =>
      query_lower.data.all fun c => (lookupName st f).data.contains c
    let candidates :=
      if candidates0.length > 10000 then candidates0.take 10000 else candidates0
    if candidates.isEmpty then []
    else
      let filenames := candidates.map fun f => strLower (basename f)
      let found := process_extract query_lower filenames 1000 scorer 65
      found.map fun m => candidates.getD (filenames.indexOf m.1) ""

/-- The `while True` loop of `WZF.async_search`, driven by the (finite
modelled portion of the) stream of items taken from `search_queue`:
`none` is the shutdown sentinel (`if query is None: break`), any string
is matched and its result put on `result_queue`.  The returned list is
the sequence of results put, in order. -/
def async_search_run (st : SearchState) (scorer : String → String → Nat) :
    List (Option String) → List (List String)
  | [] => []
  | none :: _ => []
  | some q :: rest => search_step st scorer q :: async_search_run st scorer rest

/-! ## The on-disk index cache

`WZF.__init__` fixes `cache_ttl = 86400` and
`cache_dir = os.path.expanduser('~') + '\.wzf_cache'`.  The cache
directory's contents are modelled as an association list from cache-file
path to the pair (mtime, stored payload); a payload of `none` stands for
a file whose bytes `pickle.load` rejects (corruption).  `now` is the
current `time.time()`. -/

/-- The serialized payload written by `index_files`:
`{'files': self.files, 'filename_index': self.filename_index}`. -/
structure CacheData where
  files : List String
  filename_index : List (String × String)
deriving DecidableEq, Repr

structure CacheEnv where
  use_cache : Bool
  /-- whether `open(cache_path, 'wb')`/`pickle.dump` succeeds; the
  source swallows a failure with `except: pass`. -/
  writable : Bool
  records : List (String × Int × Option CacheData)
  now : Int
deriving DecidableEq, Repr

def cache_ttl : Int := 86400

/-- `os.path.expanduser('~')` is host state; any fixed string models it. -/
def cache_dir : String := "C:\\Users\\user\\.wzf_cache"

/-- Modelled from the spec: `hashlib.md5(path.encode()).hexdigest()` is
not repository code (Python standard library); the spec only requires
"a stable one-way hash of the ... root path".  It is modelled as a fixed
deterministic function producing, like md5, a 32-character hex digest of
a 128-bit value. -/
def hashVal (s : String) : Nat :=
  (s.data.foldl (fun a c => a * 131 + c.toNat) 5381) % (2 ^ 128)

def hexDigit (n : Nat) : Char :=
  if n < 10 then Char.ofNat (48 + n) else Char.ofNat (87 + n)

def toHex32 (n : Nat) : String :=
  ⟨(List.range 32).map fun i => hexDigit (n / 16 ^ (31 - i) % 16)⟩

def md5_hexdigest (s : String) : String :=
  toHex32 (hashVal s)

/-- `WZF.get_cache_path` (the `path is None` default is resolved by the
callers in `index_files`, which always pass a concrete path). -/
def get_cache_path (path : String) : String :=
  cache_dir ++ "\\wzf_cache_" ++ md5_hexdigest path ++ ".pkl"

/-- `WZF.load_cache`: absent unless caching is on, a record exists, its
mtime is within the TTL, and unpickling succeeds. -/
def load_cache (env : CacheEnv) (path : String) : Option CacheData :=
  if env.use_cache = false then none
  else
    match env.records.lookup (get_cache_path path) with
    | none => none
    | some (mtime, blob) =>
      if env.now - mtime > cache_ttl then none
      else blob

/-- `WZF.save_cache`: best effort; a failed write leaves the cache
directory unchanged.  A successful write creates/overwrites the record
for this root with mtime `now` and the pickled payload. -/
def save_cache (env : CacheEnv) (path : String) (data : CacheData) : CacheEnv :=
  if env.use_cache = false then env
  else if env.writable then
    { env with records := (get_cache_path path, env.now, some data) :: env.records }
  else env

/-! ## The query coordinator

`WZF.filter_files` (main thread) and `WZF.async_search` (worker thread)
communicate through `search_queue` and `result_queue`.  The shared state
is modelled explicitly and the interleaving of the two threads as a
sequence of events, each an atomic effect on the state:

* `submit q` — one `filter_files` deposit: the `while not
  self.search_queue.empty(): get_nowait()` drain loop followed by
  `self.search_queue.put(self.query)`.  The drain loop is `drainLoop`;
  the main thread is the only producer, and the worker only removes
  items, so whenever the loop exits the queue is empty and the deposit
  is the sole element — the two operations are modelled as one event.
* `take q` — the worker's `self.search_queue.get()` returning `q`
  (enabled only when `q` is at the front and the worker is idle).
* `finish` — the worker completes the match for the in-flight query and
  does `self.result_queue.put(...)`; the computation itself is the
  `compute` parameter (instantiated with `search_step` below).
* `poll` — the `self.filtered_files = self.result_queue.get(timeout=0.1)`
  at the end of `filter_files`: it delivers the *front* of
  `result_queue` if one is available, otherwise (timeout) keeps the
  previous `filtered_files`.

`lastSubmitted` and `tookLatest` are ghost fields recording,
respectively, the most recent `submit` payload and whether every `take`
so far dequeued the query that was the most recent submission at that
moment. -/

structure CoordState where
  searchQueue : List String
  resultQueue : List (List String)
  inflight : Option String
  filtered_files : List String
  lastSubmitted : Option String
  tookLatest : Bool
deriving DecidableEq, Repr

def coordInit : CoordState :=
  { searchQueue := [], resultQueue := [], inflight := none,
    filtered_files := [], lastSubmitted := none, tookLatest := true }

/-- The `while not empty(): get_nowait()` loop of `filter_files`:
removes the front element until the queue is empty. -/
def drainLoop : List String → List String
  | [] => []
  | _ :: t => drainLoop t

inductive Ev where
  | submit (q : String)
  | take (q : String)
  | finish
  | poll
deriving DecidableEq, Repr

def execEv (compute : String → List String) (s : CoordState) :
    Ev → Option CoordState
  | .submit q =>
    some { s with searchQueue := drainLoop s.searchQueue ++ [q],
                  lastSubmitted := some q }
  | .take q =>
    match s.searchQueue, s.inflight with
    | q' :: rest, none =>
      if q' = q then
        some { s with searchQueue := rest, inflight := some q,
                      tookLatest := s.tookLatest && (s.lastSubmitted == some q) }
      else none
    | _, _ => none
  | .finish =>
    match s.inflight with
    | some q =>
      some { s with inflight := none,
                    resultQueue := s.resultQueue ++ [compute q] }
    | none => none
  | .poll =>
    match s.resultQueue with
    | r :: rest => some { s with resultQueue := rest, filtered_files := r }
    | [] => some s

def execEvs (compute : String → List String) :
    CoordState → List Ev → Option CoordState
  | s, [] => some s
  | s, e :: evs =>
    match execEv compute s e with
    | some s' => execEvs compute s' evs
    | none => none

/-! ## The directory walk

`os.scandir` is modelled as a function from a directory path to its
listing: `.ok entries` on success, `.err` for the `PermissionError` /
`OSError` cases the source catches.  Paths are lists of name components
below some root (`entry.path` is `directory + separator + entry.name`,
i.e. `dir ++ [name]`); indexing paths by their component lists makes the
model independent of separator quoting.  An entry is a `file`, a `dir`,
or `other` (neither `is_file()` nor `is_dir()`, e.g. a broken link).

The configuration mirrors the instance attributes `exclude_dirs`,
`exclude_files` and `max_depth` of `WZF`. -/

abbrev FPath := List String

inductive EntryKind where
  | file
  | dir
  | other
deriving DecidableEq, Repr, BEq

structure DirEntry where
  name : String
  kind : EntryKind
deriving DecidableEq, Repr, BEq

inductive Listing where
  | ok (entries : List DirEntry)
  | err
deriving DecidableEq, Repr

abbrev FS := FPath → Listing

structure Config where
  exclude_dirs : List String
  exclude_files : List String
  max_depth : Nat
deriving DecidableEq, Repr

/-- `WZF.scan_directory(directory, depth)`.  The body follows the
source line by line: return `[]` beyond `max_depth`; read the listing
(`[]` on error); collect non-excluded files in entry order; collect
non-excluded subdirectories in entry order; recurse into them at
`depth + 1` when there are any and depth budget remains.  The threaded
branch (`executor.map`) returns subdirectory results in submission
order, identically to the sequential branch, so one definition covers
both; the `queue.put` progress side effect carries no result data and
is omitted. -/
def scan_directory (cfg : Config) (fs : FS) (dir : FPath) (depth : Nat) :
    List FPath :=
  if depth > cfg.max_depth then []
  else
    match fs dir with
    | .err => []
    | .ok entries =>
      let files := (entries.filter fun e =>
          e.kind == EntryKind.file && !(cfg.exclude_files.contains e.name)).map
        fun e => dir ++ [e.name]
      let dirs_to_scan := (entries.filter fun e =>
          e.kind == EntryKind.dir && !(cfg.exclude_dirs.contains e.name)).map
        fun e => dir ++ [e.name]
      if _h : dirs_to_scan ≠ [] ∧ depth < cfg.max_depth then
        files ++ (dirs_to_scan.map fun d =>
          scan_directory cfg fs d (depth + 1)).flatten
      else files
termination_by cfg.max_depth + 1 - depth
decreasing_by omega

/-- `scan_directory` with an explicit bound on the depth of nested
recursive calls: `none` means the computation would not complete within
`fuel` nested activations.  Used to state that the recursion depth of
the walk is bounded even on cyclic filesystems. -/
def scanF (cfg : Config) (fs : FS) : Nat → FPath → Nat → Option (List FPath)
  | 0, _, _ => none
  | fuel + 1, dir, depth =>
    if depth > cfg.max_depth then some []
    else
      match fs dir with
      | .err => some []
      | .ok entries =>
        let files := (entries.filter fun e =>
            e.kind == EntryKind.file && !(cfg.exclude_files.contains e.name)).map
          fun e => dir ++ [e.name]
        let dirs_to_scan := (entries.filter fun e =>
            e.kind == EntryKind.dir && !(cfg.exclude_dirs.contains e.name)).map
          fun e => dir ++ [e.name]
        if dirs_to_scan ≠ [] ∧ depth < cfg.max_depth then
          (dirs_to_scan.mapM fun d => scanF cfg fs fuel d (depth + 1)).map
            fun rs => files ++ rs.flatten
        else some files

/-- The specification-side characterization of the walk's output: a
relative component path `rel` below `dir` (visited at depth `depth`)
names an indexed file iff it consists of visible, non-excluded directory
steps ending at a visible, non-excluded file entry, within the depth
budget.  This is the "set of files under the root whose names are not
excluded, at depth at most `max_depth`" of the spec, written as a
decidable predicate. -/
def reachableFile (cfg : Config) (fs : FS) : FPath → Nat → FPath → Bool
  | _, _, [] => false
  | dir, depth, [n] =>
    decide (depth ≤ cfg.max_depth) &&
      (match fs dir with
       | .ok l =>
         (l.any fun e => e.name == n && e.kind == EntryKind.file) &&
           !(cfg.exclude_files.contains n)
       | .err => false)
  | dir, depth, n :: m :: rest =>
    decide (depth ≤ cfg.max_depth) &&
      (match fs dir with
       | .ok l =>
         (l.any fun e => e.name == n && e.kind == EntryKind.dir) &&
           !(cfg.exclude_dirs.contains n) &&
           decide (depth < cfg.max_depth) &&
           reachableFile cfg fs (dir ++ [n]) (depth + 1) (m :: rest)
       | .err => false)

/-! ## Concrete instances used by witnesses and counterexamples -/

/-- An index holding two files in different directories that share the
basename `readme`. -/
def stBug : SearchState :=
  ⟨["C:\\a\\readme", "C:\\b\\readme"],
   [("C:\\a\\readme", "readme"), ("C:\\b\\readme", "readme")]⟩

/-- A two-file index for exercising the coordinator: query `"a"`
matches only `aa.txt`, query `"b"` only `bb.txt`, query `"ab"` nothing. -/
def st0 : SearchState :=
  ⟨["C:\\aa.txt", "C:\\bb.txt"],
   [("C:\\aa.txt", "aa.txt"), ("C:\\bb.txt", "bb.txt")]⟩

/-- The worker's match computation, instantiated on `st0` (the scorer is
irrelevant for queries of length ≤ 4). -/
def compute0 : String → List String :=
  search_step st0 fun _ _ => 0

/-- A burst of three queries `"a"`, `"ab"`, `"b"` typed faster than the
worker matches them.  Each `submit` is immediately followed by its
`filter_files` `poll`; `take`/`finish` are the worker thread's
interleaved actions.  The poll after the second submission delivers the
result of the *first* query; no later poll occurs, so the results of
`"ab"` and `"b"` are computed but never published. -/
def burstTrace : List Ev :=
  [.submit "a", .poll, .take "a", .finish,
   .submit "ab", .poll, .take "ab",
   .submit "b", .poll, .finish, .take "b", .finish]

/-- The queue part of the coordinator invariant: the search queue is
empty or holds exactly the most recently submitted query. -/
def InvQ (s : CoordState) : Prop :=
  s.searchQueue = [] ∨
    ∃ q, s.lastSubmitted = some q ∧ s.searchQueue = [q]

/-- A small tree-shaped filesystem: the root holds `a.txt` and the
directories `sub` and `.git`; `sub` holds `b.txt` and `Thumbs.db`;
`.git` holds `hidden.txt`; everything else is empty. -/
def fs0 : FS := fun p =>
  if p = [] then
    Listing.ok [⟨"a.txt", .file⟩, ⟨"sub", .dir⟩, ⟨".git", .dir⟩]
  else if p = ["sub"] then
    Listing.ok [⟨"b.txt", .file⟩, ⟨"Thumbs.db", .file⟩]
  else if p = [".git"] then
    Listing.ok [⟨"hidden.txt", .file⟩]
  else Listing.ok []

def cfg0 : Config := ⟨[".git"], ["Thumbs.db"], 10⟩

/-- A cyclic filesystem: every directory contains a subdirectory `x`
(as a symlink cycle followed by `is_dir()` would present it). -/
def fsCyc : FS := fun _ => Listing.ok [⟨"x", .dir⟩]

def cfgCyc : Config := ⟨[], [], 1⟩

/-! # Theorems -/

/-! ## Coordinator invariants -/

theorem drainLoop_eq_nil : ∀ l : List String, drainLoop l = [] := by
  intro l; induction l with
  | nil => rfl
  | cons a t ih => simpa [drainLoop] using ih

theorem execEv_inv {compute : String → List String} {s s' : CoordState} {e : Ev}
    (h1 : InvQ s) (h2 : s.tookLatest = true) (h : execEv compute s e = some s') :
    InvQ s' ∧ s'.tookLatest = true := by
  cases e with
  | submit q =>
    simp only [execEv, Option.some.injEq] at h
    subst h
    exact ⟨Or.inr ⟨q, rfl, by simp [drainLoop_eq_nil]⟩, h2⟩
  | take q =>
    simp only [execEv] at h
    rcases hq : s.searchQueue with _ | ⟨q', rest⟩ <;> rw [hq] at h
    · simp at h
    · rcases hin : s.inflight with _ | q'' <;> rw [hin] at h
      · rcases h1 with h1 | ⟨q0, hlast, hqueue⟩
        · rw [h1] at hq; cases hq
        · rw [hqueue] at hq
          injection hq with hq1 hq2
          dsimp only at h
          by_cases he : q' = q
          · rw [if_pos he] at h
            injection h with h
            subst h
            cases hq2
            refine ⟨Or.inl rfl, ?_⟩
            simp [h2, hlast, hq1, he]
          · rw [if_neg he] at h; cases h
      · simp at h
  | finish =>
    simp only [execEv] at h
    rcases hin : s.inflight with _ | q <;> rw [hin] at h
    · simp at h
    · injection h with h
      subst h
      exact ⟨h1, h2⟩
  | poll =>
    simp only [execEv] at h
    rcases hr : s.resultQueue with _ | ⟨r, rest⟩ <;> rw [hr] at h <;>
      injection h with h <;> subst h
    · exact ⟨h1, h2⟩
    · exact ⟨h1, h2⟩

theorem execEvs_inv_aux {compute : String → List String} :
    ∀ (evs : List Ev) (s0 s : CoordState), InvQ s0 → s0.tookLatest = true →
      execEvs compute s0 evs = some s → InvQ s ∧ s.tookLatest = true := by
  intro evs
  induction evs with
  | nil =>
    intro s0 s h1 h2 h
    injection h with h
    subst h
    exact ⟨h1, h2⟩
  | cons e rest ih =>
    intro s0 s h1 h2 h
    simp only [execEvs] at h
    rcases hev : execEv compute s0 e with _ | s1 <;> rw [hev] at h
    · cases h
    · obtain ⟨h1', h2'⟩ := execEv_inv h1 h2 hev
      exact ih s1 s h1' h2' h

/-! ## Substring and character-containment lemmas -/

theorem mem_of_isPrefixOf {l hay : List Char} (hp : l.isPrefixOf hay = true) :
    ∀ c ∈ l, c ∈ hay := by
  induction l generalizing hay with
  | nil => simp
  | cons a t ih =>
    cases hay with
    | nil => simp [List.isPrefixOf] at hp
    | cons b hs =>
      simp only [List.isPrefixOf, Bool.and_eq_true, beq_iff_eq] at hp
      obtain ⟨rfl, hp⟩ := hp
      intro c hc
      rcases List.mem_cons.mp hc with rfl | hc
      · exact List.mem_cons_self _ _
      · exact List.mem_cons_of_mem _ (ih hp c hc)

/-- A contiguous substring match implies that every character of the
needle occurs in the haystack: the character-containment pre-filter can
never reject a true substring match. -/
theorem mem_of_containsSub {nd hay : List Char} (h : containsSub nd hay = true) :
    ∀ c ∈ nd, c ∈ hay := by
  induction hay with
  | nil =>
    simp only [containsSub, List.isEmpty_iff] at h
    subst h; simp
  | cons b t ih =>
    simp only [containsSub, Bool.or_eq_true] at h
    rcases h with h | h
    · exact mem_of_isPrefixOf h
    · exact fun c hc => List.mem_cons_of_mem _ (ih h c hc)

/-- C5: a `filter_files` submission first drains every
queued-but-unstarted query and then deposits the new one, so immediately
after any submission the pending queue holds exactly the newly submitted
query; consequently, in every reachable coordinator state the pending
queue holds at most one uninspected query. -/
theorem pending_queue_at_most_one :
    ∀ compute : String → List String,
      (∀ (s : CoordState) (q : String),
        (execEv compute s (Ev.submit q)).map CoordState.searchQueue = some [q]) ∧
      (∀ (evs : List Ev) (s : CoordState),
        execEvs compute coordInit evs = some s → s.searchQueue.length ≤ 1) := by
  intro compute
  constructor
  · intro s q
    simp [execEv, drainLoop_eq_nil]
  · intro evs s h
    have hinv := execEvs_inv_aux evs coordInit s (Or.inl rfl) rfl h
    rcases hinv.1 with h1 | ⟨q, _, h1⟩ <;> rw [h1] <;> simp

theorem pending_queue_at_most_one_witness :
    ((execEv compute0 coordInit (Ev.submit "a")).map CoordState.searchQueue =
        some ["a"]) ∧
      (CoordState.mk ["a"] [] none [] (some "a") true).searchQueue.length ≤ 1 :=
  ⟨(pending_queue_at_most_one compute0).1 coordInit "a",
   (pending_queue_at_most_one compute0).2 [Ev.submit "a"]
     (CoordState.mk ["a"] [] none [] (some "a") true) (by decide)⟩

/-- C2 (counterexample): a burst `"a"`, `"ab"`, `"b"` in which every
computation eventually finishes, yet the final published
`filtered_files` is the result for the *first* query.  `filter_files`
fetches from the front of the FIFO `result_queue`; the poll issued with
the second submission delivers the first query's result, the remaining
polls time out, and the results for `"ab"` and `"b"` — both computed,
with `"b"`'s computation finished — are left in the queue unpublished.
The claim would require the final published result to be the one for
`"b"`. -/
theorem latest_query_wins_counterexample :
    (execEvs compute0 coordInit burstTrace).map CoordState.filtered_files =
        some (compute0 "a") ∧
      (execEvs compute0 coordInit burstTrace).map CoordState.inflight =
        some none ∧
      (execEvs compute0 coordInit burstTrace).map CoordState.resultQueue =
        some [compute0 "ab", compute0 "b"] ∧
      compute0 "a" = ["C:\\aa.txt"] ∧
      compute0 "b" = ["C:\\bb.txt"] ∧
      compute0 "a" ≠ compute0 "b" := by
  refine ⟨?_, ?_, ?_, ?_, ?_, ?_⟩ <;> decide

/-- C2 (amended): the worker never dequeues a query that has been
superseded while queued — every query whose computation starts was the
most recently submitted query at the moment it was dequeued (the
`tookLatest` ghost flag holds in every reachable state).  The published
result, however, is delivered FIFO from `result_queue`, so the final
published result is the oldest undelivered completed result at the last
poll, not necessarily the result of the most recently completed query. -/
theorem worker_takes_latest :
    ∀ (compute : String → List String) (evs : List Ev) (s : CoordState),
      execEvs compute coordInit evs = some s → s.tookLatest = true := by
  intro compute evs s h
  exact (execEvs_inv_aux evs coordInit s (Or.inl rfl) rfl h).2

theorem worker_takes_latest_witness :
    execEvs compute0 coordInit [Ev.submit "a", Ev.take "a"] =
        some (CoordState.mk [] [] (some "a") [] (some "a") true) ∧
      (CoordState.mk [] [] (some "a") [] (some "a") true).tookLatest = true :=
  ⟨by decide,
   worker_takes_latest compute0 [Ev.submit "a", Ev.take "a"]
     (CoordState.mk [] [] (some "a") [] (some "a") true) (by decide)⟩

/-- C10: the background search worker's loop stops only when the `None`
sentinel is dequeued (any further stream items are ignored); a dequeued
string continues the loop and publishes a result; in particular the
empty string `""` is a legitimate query whose published result is the
first 1000 indexed files in insertion order. -/
theorem async_search_empty_query :
    (∀ (st : SearchState) (scorer : String → String → Nat) (q : String)
        (rest : List (Option String)),
      async_search_run st scorer (some q :: rest) =
        search_step st scorer q :: async_search_run st scorer rest) ∧
    (∀ (st : SearchState) (scorer : String → String → Nat)
        (rest : List (Option String)),
      async_search_run st scorer (none :: rest) = []) ∧
    (∀ (st : SearchState) (scorer : String → String → Nat),
      search_step st scorer "" = st.files.take 1000) :=
  ⟨fun _ _ _ _ => rfl, fun _ _ _ => rfl, fun _ _ => rfl⟩

/-- C6: `load_cache` reports a cache miss (`none`) whenever no record
exists for the root's cache slot, whenever the record's age exceeds the
24-hour TTL, and whenever the stored payload cannot be unpickled; in
every case the miss is returned as a value, never an error. -/
theorem load_cache_miss_conditions :
    ∀ (env : CacheEnv) (path : String),
      (env.records.lookup (get_cache_path path) = none →
        load_cache env path = none) ∧
      (∀ (mtime : Int) (blob : Option CacheData),
        env.records.lookup (get_cache_path path) = some (mtime, blob) →
        env.now - mtime > cache_ttl → load_cache env path = none) ∧
      (∀ mtime : Int,
        env.records.lookup (get_cache_path path) = some (mtime, none) →
        load_cache env path = none) := by
  intro env path
  refine ⟨fun hmiss => ?_, fun mtime blob hrec hexp => ?_, fun mtime hrec => ?_⟩ <;>
      unfold load_cache <;> cases hu : env.use_cache
  · simp
  · rw [hmiss]; simp
  · simp
  · rw [hrec]; simp [hexp]
  · simp
  · rw [hrec]; by_cases h : env.now - mtime > cache_ttl <;> simp [h]

theorem load_cache_miss_conditions_witness :
    let envMiss : CacheEnv := ⟨true, true, [], 0⟩
    let key := get_cache_path "C:\\data"
    let envExp : CacheEnv := ⟨true, true, [(key, 0, some ⟨[], []⟩)], 100000⟩
    let envBad : CacheEnv := ⟨true, true, [(key, 0, none)], 10⟩
    load_cache envMiss "C:\\data" = none ∧
      load_cache envExp "C:\\data" = none ∧
      load_cache envBad "C:\\data" = none := by
  refine ⟨(load_cache_miss_conditions _ _).1 rfl,
    (load_cache_miss_conditions _ "C:\\data").2.1 0 (some ⟨[], []⟩) ?_ (by decide),
    (load_cache_miss_conditions _ "C:\\data").2.2 0 ?_⟩ <;>
    simp [List.lookup]

/-- C7: with caching enabled and the cache file writable, saving an
index for a root and immediately loading that root returns exactly the
saved payload: the same file list and the same basename mapping. -/
theorem cache_roundtrip :
    ∀ (env : CacheEnv) (path : String) (data : CacheData),
      env.use_cache = true → env.writable = true →
      load_cache (save_cache env path data) path = some data := by
  intro env path data hu hw
  unfold save_cache load_cache
  simp [hu, hw, List.lookup, cache_ttl]

theorem cache_roundtrip_witness :
    let env : CacheEnv := ⟨true, true, [], 12345⟩
    let data : CacheData := ⟨["C:\\a.txt"], [("C:\\a.txt", "a.txt")]⟩
    load_cache (save_cache env "C:\\data" data) "C:\\data" = some data :=
  cache_roundtrip _ _ _ rfl rfl

theorem toHex32_data_length : ∀ n : Nat, (toHex32 n).data.length = 32 := by
  intro n; simp [toHex32]

theorem hashVal_lt : ∀ s : String, hashVal s < 2 ^ 128 := by
  intro s; exact Nat.mod_lt _ (by norm_num)

theorem md5_hexdigest_data_length :
    ∀ s : String, (md5_hexdigest s).data.length = 32 :=
  fun _ => toHex32_data_length _

theorem md5_hexdigest_length :
    ∀ s : String, (md5_hexdigest s).length = 32 :=
  fun s => md5_hexdigest_data_length s

/-- C8 (counterexample): "distinct roots never collide" cannot hold of
the cache keying: the key embeds a fixed-length (128-bit, 32 hex
characters) digest of the root path, so by pigeonhole infinitely many
distinct root paths share a digest and therefore a cache slot.  (This is
intrinsic to any fixed-length hash, md5 included.) -/
theorem cache_key_collision_exists :
    ¬ ∀ p q : String, p ≠ q → get_cache_path p ≠ get_cache_path q := by
  intro hinj
  obtain ⟨m, n, hmn, heq⟩ := Finite.exists_ne_map_eq_of_infinite
    (fun k : ℕ => (⟨hashVal ⟨List.replicate k 'a'⟩, hashVal_lt _⟩ : Fin (2 ^ 128)))
  have hne : (⟨List.replicate m 'a'⟩ : String) ≠ ⟨List.replicate n 'a'⟩ := by
    intro h
    apply hmn
    have hlen := congrArg (fun s : String => s.data.length) h
    simpa using hlen
  apply hinj _ _ hne
  have hval : hashVal ⟨List.replicate m 'a'⟩ = hashVal ⟨List.replicate n 'a'⟩ :=
    congrArg Fin.val heq
  unfold get_cache_path md5_hexdigest
  rw [hval]

/-- C8 (amended): cache records are keyed by a deterministic hash of
the root path: roots whose digests differ get distinct slots (the same
root always reuses its slot, and a collision requires a digest
collision, possible in principle for any fixed-length digest), and a
successful save stores under the root's slot the creation timestamp
together with the serialized index payload — the path list and the
basename mapping. -/
theorem cache_key_amended :
    (∀ p q : String, md5_hexdigest p ≠ md5_hexdigest q →
      get_cache_path p ≠ get_cache_path q) ∧
    (∀ (env : CacheEnv) (path : String) (data : CacheData),
      env.use_cache = true → env.writable = true →
      (save_cache env path data).records.lookup (get_cache_path path) =
        some (env.now, some data)) := by
  constructor
  · intro p q hd hpath
    apply hd
    have h1 := congrArg String.data hpath
    simp only [get_cache_path, String.data_append] at h1
    have h2 := (List.append_inj h1 (by
      simp [List.length_append, md5_hexdigest_data_length, md5_hexdigest_length])).1
    have h3 := List.append_cancel_left h2
    exact congrArg String.mk h3
  · intro env path data hu hw
    unfold save_cache
    simp [hu, hw, List.lookup]

theorem cache_key_amended_witness :
    (md5_hexdigest "C:\\r1" ≠ md5_hexdigest "C:\\r2" ∧
      get_cache_path "C:\\r1" ≠ get_cache_path "C:\\r2") ∧
    ((save_cache ⟨true, true, [], 77⟩ "C:\\r1"
        ⟨["C:\\r1\\f.txt"], [("C:\\r1\\f.txt", "f.txt")]⟩).records.lookup
          (get_cache_path "C:\\r1") =
        some (77, some ⟨["C:\\r1\\f.txt"], [("C:\\r1\\f.txt", "f.txt")]⟩)) :=
  ⟨⟨by decide, cache_key_amended.1 "C:\\r1" "C:\\r2" (by decide)⟩,
   cache_key_amended.2 ⟨true, true, [], 77⟩ "C:\\r1"
     ⟨["C:\\r1\\f.txt"], [("C:\\r1\\f.txt", "f.txt")]⟩ rfl rfl⟩

/-- C3: for a query of length 3 or 4, the medium tier's two-pass
computation (character-containment pre-filter, then exact substring
re-filter) returns exactly the files whose cached lowercase basename
contains the lowercased query as a contiguous substring, in original
index order, capped at 1000: it equals the direct substring filter. -/
theorem medium_tier_eq_substring_filter :
    ∀ (st : SearchState) (scorer : String → String → Nat) (q : String),
      3 ≤ q.length → q.length ≤ 4 →
      search_step st scorer q =
        (st.files.filter fun f =>
          containsSub (strLower q).data (lookupName st f).data).take 1000 := by
  intro st scorer q h3 h4
  have hne : ¬ q = "" := by
    intro h; subst h; simp at h3
  have h2 : ¬ q.length ≤ 2 := by omega
  unfold search_step
  rw [if_neg hne, if_neg h2, if_pos h4]
  dsimp only []
  congr 1
  rw [List.filter_filter]
  apply List.filter_congr
  intro f _
  dsimp only
  rcases Bool.eq_false_or_eq_true
      (containsSub (strLower q).data (lookupName st f).data) with hc | hc
  · rw [hc, Bool.true_and, List.all_eq_true]
    intro c hcmem
    simpa using mem_of_containsSub hc c hcmem
  · rw [hc, Bool.false_and]

theorem medium_tier_eq_substring_filter_witness :
    let st : SearchState := ⟨["C:\\abc.txt", "C:\\acb.txt", "C:\\z.txt"],
      [("C:\\abc.txt", "abc.txt"), ("C:\\acb.txt", "acb.txt"),
       ("C:\\z.txt", "z.txt")]⟩
    3 ≤ "abc".length ∧ "abc".length ≤ 4 ∧
      search_step st (fun _ _ => 0) "abc" =
        (st.files.filter fun f =>
          containsSub (strLower "abc").data (lookupName st f).data).take 1000 :=
  ⟨by decide, by decide,
    medium_tier_eq_substring_filter _ (fun _ _ => 0) "abc" (by decide) (by decide)⟩

/-- C4: on the long tier the code maps each fuzzy match back to a path
with `candidates[filenames.index(match[0])]`, i.e. to the *first*
candidate whose basename equals the matched string.  With two candidate
paths sharing a basename the published result repeats the first path and
omits the second, for any scorer that scores the identical basename at
or above the cutoff — the claimed result would be both distinct paths. -/
theorem long_tier_first_index_bug :
    ∀ scorer : String → String → Nat, 65 ≤ scorer "readme" "readme" →
      search_step stBug scorer "readme" = ["C:\\a\\readme", "C:\\a\\readme"] := by
  intro scorer h
  have hs : decide (65 ≤ scorer "readme" "readme") = true := decide_eq_true h
  have hstep : search_step stBug scorer "readme" =
      (process_extract "readme" ["readme", "readme"] 1000 scorer 65).map
        (fun m => (["C:\\a\\readme", "C:\\b\\readme"] : List String).getD
          ((["readme", "readme"] : List String).indexOf m.1) "") := rfl
  rw [hstep]
  simp only [process_extract, List.map_cons, List.map_nil, List.filter_cons,
    List.filter_nil, hs, if_pos, sortDesc, insertDesc, le_refl, if_true]
  simp [List.indexOf, List.findIdx, List.findIdx.go]

theorem long_tier_first_index_bug_witness :
    65 ≤ (fun _ _ => (100 : Nat)) "readme" "readme" ∧
      search_step stBug (fun _ _ => 100) "readme" =
        ["C:\\a\\readme", "C:\\a\\readme"] :=
  ⟨by decide, long_tier_first_index_bug (fun _ _ => 100) (by decide)⟩

/-! ## Termination of the walk -/

theorem mapM_some {α β : Type} {f : α → Option β} {g : α → β} :
    ∀ l : List α, (∀ a ∈ l, f a = some (g a)) → l.mapM f = some (l.map g) := by
  intro l
  induction l with
  | nil => intro _; rfl
  | cons a t ih =>
    intro h
    rw [List.mapM_cons, h a (by simp), ih fun b hb => h b (by simp [hb])]
    rfl

/-- The walk's recursion, run with an explicit activation budget, never
exhausts a budget of `max_depth + 2 - depth` nested activations: the
recursion depth is bounded and the walk is total on every filesystem,
cyclic ones included. -/
theorem scanF_eq_scan (cfg : Config) (fs : FS) :
    ∀ (fuel depth : Nat) (dir : FPath),
      cfg.max_depth + 2 - depth ≤ fuel → 0 < fuel →
      scanF cfg fs fuel dir depth = some (scan_directory cfg fs dir depth) := by
  intro fuel
  induction fuel with
  | zero => intro depth dir h h0; omega
  | succ k ih =>
    intro depth dir h _
    rw [scan_directory]
    show scanF cfg fs (k + 1) dir depth = _
    rw [scanF]
    by_cases hd : depth > cfg.max_depth
    · rw [if_pos hd, if_pos hd]
    · rw [if_neg hd, if_neg hd]
      cases hfs : fs dir with
      | err => rfl
      | ok entries =>
        dsimp only
        by_cases hrec : ((entries.filter fun e =>
            e.kind == EntryKind.dir && !(cfg.exclude_dirs.contains e.name)).map
              fun e => dir ++ [e.name]) ≠ [] ∧ depth < cfg.max_depth
        · rw [if_pos hrec, dif_pos hrec]
          rw [mapM_some _ fun d _ =>
            ih (depth + 1) d (by omega) (by omega)]
          rfl
        · rw [if_neg hrec, dif_neg hrec]

/-- C9: `scan_directory` terminates on every input: its recursion fits
any activation budget of at least `max_depth + 2 - depth` (each
recursive call increases `depth` by one and is guarded by
`depth < max_depth`), even on filesystems with directory cycles; and a
call at any depth beyond `max_depth` returns the empty list
immediately. -/
theorem scan_directory_terminates :
    (∀ (cfg : Config) (fs : FS) (dir : FPath) (depth fuel : Nat),
      cfg.max_depth + 2 - depth ≤ fuel → 0 < fuel →
      scanF cfg fs fuel dir depth = some (scan_directory cfg fs dir depth)) ∧
    (∀ (cfg : Config) (fs : FS) (dir : FPath) (k : Nat),
      scan_directory cfg fs dir (cfg.max_depth + 1 + k) = []) := by
  constructor
  · intro cfg fs dir depth fuel h h0
    exact scanF_eq_scan cfg fs fuel depth dir h h0
  · intro cfg fs dir k
    rw [scan_directory, if_pos (by omega)]

theorem scan_directory_terminates_witness :
    cfgCyc.max_depth + 2 - 0 ≤ 3 ∧ 0 < 3 ∧
      scanF cfgCyc fsCyc 3 [] 0 = some (scan_directory cfgCyc fsCyc [] 0) :=
  ⟨by decide, by decide,
   scan_directory_terminates.1 cfgCyc fsCyc [] 0 3 (by decide) (by decide)⟩

/-! ## Completeness of the walk -/

theorem reachableFile_nil {cfg : Config} {fs : FS} {dir : FPath} {depth : Nat} :
    reachableFile cfg fs dir depth [] = false := rfl

theorem reachableFile_ne_nil {cfg : Config} {fs : FS} {dir : FPath}
    {depth : Nat} {rel : FPath}
    (h : reachableFile cfg fs dir depth rel = true) : rel ≠ [] := by
  intro hrel
  subst hrel
  simp [reachableFile_nil] at h

theorem reachableFile_depth_le {cfg : Config} {fs : FS} {dir : FPath}
    {depth : Nat} {rel : FPath}
    (h : reachableFile cfg fs dir depth rel = true) : depth ≤ cfg.max_depth := by
  cases rel with
  | nil => simp [reachableFile_nil] at h
  | cons n rest =>
    cases rest <;>
      simp only [reachableFile, Bool.and_eq_true, decide_eq_true_eq] at h <;>
      exact h.1

theorem reachableFile_err {cfg : Config} {fs : FS} {dir : FPath} {depth : Nat}
    (hfs : fs dir = Listing.err) :
    ∀ rel, reachableFile cfg fs dir depth rel = false := by
  intro rel
  cases rel with
  | nil => rfl
  | cons n rest => cases rest <;> simp [reachableFile, hfs]

theorem reachableFile_single {cfg : Config} {fs : FS} {dir : FPath}
    {depth : Nat} {entries : List DirEntry} {n : String}
    (hfs : fs dir = Listing.ok entries) :
    reachableFile cfg fs dir depth [n] = true ↔
      depth ≤ cfg.max_depth ∧
        (entries.any fun e => e.name == n && e.kind == EntryKind.file) = true ∧
        cfg.exclude_files.contains n = false := by
  simp only [reachableFile, hfs, Bool.and_eq_true, decide_eq_true_eq,
    Bool.not_eq_true']

theorem reachableFile_cons_cons {cfg : Config} {fs : FS} {dir : FPath}
    {depth : Nat} {entries : List DirEntry} {n m : String} {rest : FPath}
    (hfs : fs dir = Listing.ok entries) :
    reachableFile cfg fs dir depth (n :: m :: rest) = true ↔
      depth ≤ cfg.max_depth ∧
        (entries.any fun e => e.name == n && e.kind == EntryKind.dir) = true ∧
        cfg.exclude_dirs.contains n = false ∧
        depth < cfg.max_depth ∧
        reachableFile cfg fs (dir ++ [n]) (depth + 1) (m :: rest) = true := by
  simp only [reachableFile, hfs, Bool.and_eq_true, decide_eq_true_eq,
    Bool.not_eq_true']
  tauto

/-- Membership in the file part of one directory's scan output. -/
theorem mem_files_iff {cfg : Config} {entries : List DirEntry} {dir p : FPath} :
    p ∈ ((entries.filter fun e =>
        e.kind == EntryKind.file && !(cfg.exclude_files.contains e.name)).map
          fun e => dir ++ [e.name]) ↔
      ∃ n, p = dir ++ [n] ∧
        (entries.any fun e => e.name == n && e.kind == EntryKind.file) = true ∧
        cfg.exclude_files.contains n = false := by
  simp only [List.mem_map, List.mem_filter, List.any_eq_true,
    Bool.and_eq_true, beq_iff_eq, Bool.not_eq_true']
  constructor
  · rintro ⟨e, ⟨he, hk, hx⟩, rfl⟩
    exact ⟨e.name, rfl, ⟨e, he, rfl, hk⟩, hx⟩
  · rintro ⟨n, rfl, ⟨e, he, hn, hk⟩, hx⟩
    exact ⟨e, ⟨he, hk, by rw [hn]; exact hx⟩, by rw [hn]⟩

/-- Membership in the subdirectory worklist of one directory's scan. -/
theorem mem_dirs_iff {cfg : Config} {entries : List DirEntry} {dir d : FPath} :
    d ∈ ((entries.filter fun e =>
        e.kind == EntryKind.dir && !(cfg.exclude_dirs.contains e.name)).map
          fun e => dir ++ [e.name]) ↔
      ∃ n, d = dir ++ [n] ∧
        (entries.any fun e => e.name == n && e.kind == EntryKind.dir) = true ∧
        cfg.exclude_dirs.contains n = false := by
  simp only [List.mem_map, List.mem_filter, List.any_eq_true,
    Bool.and_eq_true, beq_iff_eq, Bool.not_eq_true']
  constructor
  · rintro ⟨e, ⟨he, hk, hx⟩, rfl⟩
    exact ⟨e.name, rfl, ⟨e, he, rfl, hk⟩, hx⟩
  · rintro ⟨n, rfl, ⟨e, he, hn, hk⟩, hx⟩
    exact ⟨e, ⟨he, hk, by rw [hn]; exact hx⟩, by rw [hn]⟩

/-- The membership characterization of the walk: a path is in the scan
output iff it extends the scanned directory by a reachable relative
file path. -/
theorem mem_scan (cfg : Config) (fs : FS) :
    ∀ (fuel depth : Nat) (dir p : FPath), cfg.max_depth + 1 - depth ≤ fuel →
      (p ∈ scan_directory cfg fs dir depth ↔
        ∃ rel, p = dir ++ rel ∧ reachableFile cfg fs dir depth rel = true) := by
  intro fuel
  induction fuel with
  | zero =>
    intro depth dir p h
    rw [scan_directory, if_pos (by omega : depth > cfg.max_depth)]
    simp only [List.not_mem_nil, false_iff, not_exists]
    rintro rel ⟨_, hr⟩
    have := reachableFile_depth_le hr
    omega
  | succ k ih =>
    intro depth dir p h
    by_cases hd : depth > cfg.max_depth
    · rw [scan_directory, if_pos hd]
      simp only [List.not_mem_nil, false_iff, not_exists]
      rintro rel ⟨_, hr⟩
      have := reachableFile_depth_le hr
      omega
    · rw [scan_directory, if_neg hd]
      cases hfs : fs dir with
      | err =>
        simp only [List.not_mem_nil, false_iff, not_exists]
        rintro rel ⟨_, hr⟩
        rw [reachableFile_err hfs rel] at hr
        cases hr
      | ok entries =>
        dsimp only
        by_cases hrec : ((entries.filter fun e =>
            e.kind == EntryKind.dir && !(cfg.exclude_dirs.contains e.name)).map
              fun e => dir ++ [e.name]) ≠ [] ∧ depth < cfg.max_depth
        · rw [dif_pos hrec]
          constructor
          · intro hmem
            rcases List.mem_append.mp hmem with hmem | hmem
            · rcases mem_files_iff.mp hmem with ⟨n, rfl, hany, hx⟩
              exact ⟨[n], rfl, (reachableFile_single hfs).mpr ⟨by omega, hany, hx⟩⟩
            · rcases List.mem_flatten.mp hmem with ⟨l, hl, hpl⟩
              rcases List.mem_map.mp hl with ⟨d, hdmem, rfl⟩
              rcases mem_dirs_iff.mp hdmem with ⟨n, rfl, hany, hx⟩
              rcases (ih (depth + 1) (dir ++ [n]) p (by omega)).mp hpl with
                ⟨rel', hp', hr'⟩
              cases rel' with
              | nil => exact absurd rfl (reachableFile_ne_nil hr')
              | cons m rest =>
                refine ⟨n :: m :: rest, by simp [hp'], ?_⟩
                exact (reachableFile_cons_cons hfs).mpr
                  ⟨by omega, hany, hx, hrec.2, hr'⟩
          · rintro ⟨rel, rfl, hr⟩
            cases rel with
            | nil => exact absurd rfl (reachableFile_ne_nil hr)
            | cons n rest =>
              cases rest with
              | nil =>
                rcases (reachableFile_single hfs).mp hr with ⟨_, hany, hx⟩
                exact List.mem_append.mpr
                  (Or.inl (mem_files_iff.mpr ⟨n, rfl, hany, hx⟩))
              | cons m rest' =>
                rcases (reachableFile_cons_cons hfs).mp hr with
                  ⟨_, hany, hx, hlt, hr'⟩
                refine List.mem_append.mpr (Or.inr (List.mem_flatten.mpr
                  ⟨scan_directory cfg fs (dir ++ [n]) (depth + 1),
                   List.mem_map.mpr ⟨dir ++ [n],
                     mem_dirs_iff.mpr ⟨n, rfl, hany, hx⟩, rfl⟩, ?_⟩))
                exact (ih (depth + 1) (dir ++ [n]) _ (by omega)).mpr
                  ⟨m :: rest', by simp, hr'⟩
        · rw [dif_neg hrec]
          constructor
          · intro hmem
            rcases mem_files_iff.mp hmem with ⟨n, rfl, hany, hx⟩
            exact ⟨[n], rfl, (reachableFile_single hfs).mpr ⟨by omega, hany, hx⟩⟩
          · rintro ⟨rel, rfl, hr⟩
            cases rel with
            | nil => exact absurd rfl (reachableFile_ne_nil hr)
            | cons n rest =>
              cases rest with
              | nil =>
                rcases (reachableFile_single hfs).mp hr with ⟨_, hany, hx⟩
                exact mem_files_iff.mpr ⟨n, rfl, hany, hx⟩
              | cons m rest' =>
                rcases (reachableFile_cons_cons hfs).mp hr with
                  ⟨_, hany, hx, hlt, _⟩
                refine absurd ⟨?_, hlt⟩ hrec
                intro hnil
                have hmem2 : dir ++ [n] ∈ ((entries.filter fun e =>
                    e.kind == EntryKind.dir &&
                      !(cfg.exclude_dirs.contains e.name)).map
                        fun e => dir ++ [e.name]) :=
                  mem_dirs_iff.mpr ⟨n, rfl, hany, hx⟩
                rw [hnil] at hmem2
                cases hmem2

/-- Mapping distinct entry names to child paths keeps them distinct. -/
theorem nodup_entry_paths {entries : List DirEntry} {dir : FPath}
    (φ : DirEntry → Bool) (hnames : (entries.map DirEntry.name).Nodup) :
    ((entries.filter φ).map fun e => dir ++ [e.name]).Nodup := by
  have h1 : ((entries.filter φ).map DirEntry.name).Nodup :=
    hnames.sublist ((List.filter_sublist entries).map DirEntry.name)
  have heq : ((entries.filter φ).map fun e => dir ++ [e.name]) =
      (((entries.filter φ).map DirEntry.name).map fun n => dir ++ [n]) := by
    rw [List.map_map]; rfl
  rw [heq]
  refine h1.map fun a b hab => ?_
  have := List.append_cancel_left hab
  simpa using this

/-- The walk returns no duplicate paths when every directory listing has
pairwise-distinct entry names. -/
theorem scan_nodup (cfg : Config) (fs : FS)
    (hnodup : ∀ q l, fs q = Listing.ok l → (l.map DirEntry.name).Nodup) :
    ∀ (fuel depth : Nat) (dir : FPath), cfg.max_depth + 1 - depth ≤ fuel →
      (scan_directory cfg fs dir depth).Nodup := by
  intro fuel
  induction fuel with
  | zero =>
    intro depth dir h
    rw [scan_directory, if_pos (by omega : depth > cfg.max_depth)]
    exact List.nodup_nil
  | succ k ih =>
    intro depth dir h
    by_cases hd : depth > cfg.max_depth
    · rw [scan_directory, if_pos hd]; exact List.nodup_nil
    · rw [scan_directory, if_neg hd]
      cases hfs : fs dir with
      | err => exact List.nodup_nil
      | ok entries =>
        dsimp only
        have hnames := hnodup dir entries hfs
        by_cases hrec : ((entries.filter fun e =>
            e.kind == EntryKind.dir && !(cfg.exclude_dirs.contains e.name)).map
              fun e => dir ++ [e.name]) ≠ [] ∧ depth < cfg.max_depth
        · rw [dif_pos hrec]
          refine List.Nodup.append (nodup_entry_paths _ hnames) ?_ ?_
          · rw [List.nodup_flatten]
            constructor
            · intro l hl
              rcases List.mem_map.mp hl with ⟨d, _, rfl⟩
              exact ih (depth + 1) d (by omega)
            · rw [List.pairwise_map]
              refine List.Pairwise.imp_of_mem ?_ (nodup_entry_paths _ hnames)
              intro d1 d2 h1mem h2mem hne p hp1 hp2
              rcases (mem_scan cfg fs (cfg.max_depth + 1) (depth + 1) d1 p
                (by omega)).mp hp1 with ⟨r1, hpr1, _⟩
              rcases (mem_scan cfg fs (cfg.max_depth + 1) (depth + 1) d2 p
                (by omega)).mp hp2 with ⟨r2, hpr2, _⟩
              rcases mem_dirs_iff.mp h1mem with ⟨n1, rfl, _, _⟩
              rcases mem_dirs_iff.mp h2mem with ⟨n2, rfl, _, _⟩
              apply hne
              have heq := hpr1.symm.trans hpr2
              rw [List.append_assoc, List.append_assoc] at heq
              have heq2 := List.append_cancel_left heq
              simp only [List.singleton_append] at heq2
              injection heq2 with hn _
              rw [hn]
          · intro p hpf hpflat
            rcases mem_files_iff.mp hpf with ⟨n, rfl, _, _⟩
            rcases List.mem_flatten.mp hpflat with ⟨l, hl, hpl⟩
            rcases List.mem_map.mp hl with ⟨d, hdmem, rfl⟩
            rcases mem_dirs_iff.mp hdmem with ⟨n2, rfl, _, _⟩
            rcases (mem_scan cfg fs (cfg.max_depth + 1) (depth + 1) _ _
              (by omega)).mp hpl with ⟨r, hpr, hre⟩
            have hrne := reachableFile_ne_nil hre
            have hlen := congrArg List.length hpr
            rw [List.length_append, List.length_append,
              List.length_append] at hlen
            simp only [List.length_singleton] at hlen
            have hr0 : r.length = 0 := by omega
            exact hrne (List.length_eq_zero.mp hr0)
        · rw [dif_neg hrec]
          exact nodup_entry_paths _ hnames

/-- C1: for a directory tree (every listing readable, entry names
unique within each directory), the walk returns, without duplicates,
exactly the paths of the files below the root whose names are not in
the excluded-files set, reached through directories whose names are not
in the excluded-directories set, at depth at most `max_depth`
(`reachableFile` is this set, phrased over the filesystem; listings the
walk cannot read contribute no reachable files, so the
characterization also covers the error-free case of the claim). -/
theorem scan_directory_complete :
    ∀ (cfg : Config) (fs : FS) (root : FPath),
      (∀ q l, fs q = Listing.ok l → (l.map DirEntry.name).Nodup) →
      (scan_directory cfg fs root 0).Nodup ∧
      ∀ p, p ∈ scan_directory cfg fs root 0 ↔
        ∃ rel, p = root ++ rel ∧ reachableFile cfg fs root 0 rel = true :=
  fun cfg fs root hnd =>
    ⟨scan_nodup cfg fs hnd (cfg.max_depth + 1) 0 root (by omega),
     fun p => mem_scan cfg fs (cfg.max_depth + 1) 0 root p (by omega)⟩

theorem fs0_nodup :
    ∀ q l, fs0 q = Listing.ok l → (l.map DirEntry.name).Nodup := by
  intro q l h
  unfold fs0 at h
  split at h
  · injection h with h; subst h; decide
  · split at h
    · injection h with h; subst h; decide
    · split at h
      · injection h with h; subst h; decide
      · injection h with h; subst h; decide

theorem scan_directory_complete_witness :
    (scan_directory cfg0 fs0 [] 0).Nodup ∧
      ∀ p, p ∈ scan_directory cfg0 fs0 [] 0 ↔
        ∃ rel, p = [] ++ rel ∧ reachableFile cfg0 fs0 [] 0 rel = true :=
  scan_directory_complete cfg0 fs0 [] fs0_nodup

end WZF
